import Mathlib

/-!
Verification of the news_agent repository: a three-step news recommendation
pipeline (interest extraction, article fetch, LLM ranking) implemented twice,
in app.py (REPL entry point) and flask_api.py (HTTP entry point).

Strings are modelled as List Char. Python operations str.lower, str.replace,
str.split, str.strip and str.join are embedded below; str.lower is modelled on
the ASCII range, matching the behaviour relevant to this repository. External
effects (the HTTP news call and the language-model call) are modelled as
oracles passed to the embedded functions.
-/

/-- The apostrophe character, built from its code point. -/
def apos : Char := Char.ofNat 39

/-- ASCII uppercase test, as in Python str.isupper for basic latin letters. -/
def isUpperChar (c : Char) : Bool := 65 ≤ c.toNat && c.toNat ≤ 90

/-- ASCII model of Python str.lower on a single character. -/
def lowerChar (c : Char) : Char :=
  if 65 ≤ c.toNat ∧ c.toNat ≤ 90 then Char.ofNat (c.toNat + 32) else c

/-- Python str.lower, mapped over the characters (ASCII model). -/
def pyLower (s : List Char) : List Char := s.map lowerChar

/-- Python whitespace test used by str.strip (ASCII whitespace). -/
def isSpaceChar (c : Char) : Bool :=
  c = ' ' || c = Char.ofNat 9 || c = Char.ofNat 10 || c = Char.ofNat 13 ||
  c = Char.ofNat 11 || c = Char.ofNat 12

/-- Boolean test that the first list is an initial segment of the second. -/
def pfx : List Char → List Char → Bool
  | [], _ => true
  | _ :: _, [] => false
  | a :: as, b :: bs => a == b && pfx as bs

/-- Boolean test that pat occurs as a contiguous substring of s,
the Python expression pat in s. -/
def hasSub (s pat : List Char) : Bool :=
  match s with
  | [] => pfx pat []
  | _ :: t => pfx pat s || hasSub t pat

/-- Fuel-indexed worker for pyReplace. The fuel dominates the length of the
string, so with fuel = length the scan never runs out: each step consumes at
least one character. -/
def pyReplaceAux (pat rep : List Char) : Nat → List Char → List Char
  | 0, s => s
  | _ + 1, [] => []
  | n + 1, c :: t =>
    if pfx pat (c :: t) = true ∧ pat ≠ [] then
      rep ++ pyReplaceAux pat rep n ((c :: t).drop pat.length)
    else
      c :: pyReplaceAux pat rep n t

/-- Python str.replace(pat, rep) for a nonempty pattern: left-to-right
replacement of non-overlapping occurrences. The repository only calls replace
with nonempty patterns, so the empty-pattern interspersal behaviour of Python
is not modelled (an empty pattern here leaves the string unchanged). -/
def pyReplace (s pat rep : List Char) : List Char :=
  pyReplaceAux pat rep s.length s

/-- Python s.split with a one-character comma separator. -/
def splitComma : List Char → List (List Char)
  | [] => [[]]
  | c :: t =>
    if c = ',' then [] :: splitComma t
    else
      match splitComma t with
      | [] => [[c]]
      | p :: ps => (c :: p) :: ps

/-- Python str.strip, leading side. -/
def lstrip (s : List Char) : List Char := s.dropWhile isSpaceChar

/-- Python str.strip, trailing side. -/
def rstrip (s : List Char) : List Char := (s.reverse.dropWhile isSpaceChar).reverse

/-- Python str.strip: drop leading and trailing whitespace. -/
def pyStrip (s : List Char) : List Char := rstrip (lstrip s)

/-- Python (comma-space).join. -/
def joinCS : List (List Char) → List Char
  | [] => []
  | [p] => p
  | p :: ps => p ++ ',' :: ' ' :: joinCS ps

/-- Python (space).join. -/
def joinSpace : List (List Char) → List Char
  | [] => []
  | [p] => p
  | p :: ps => p ++ ' ' :: joinSpace ps

/-- The literal phrase removed by the extractor, lowercase
i-apostrophe-m space interested space in. -/
def phrase : List Char :=
  ['i', apos, 'm', ' ', 'i', 'n', 't', 'e', 'r', 'e', 's', 't', 'e', 'd', ' ', 'i', 'n']

/-- The three-letter conjunction replaced by a comma in the extractor. -/
def andStr : List Char := ['a', 'n', 'd']

/-- get_user_interests from src/app.py lines 29-32, identical in
src/flask_api.py lines 33-36: lower-case, drop the interest phrase, turn the
conjunction into a comma, split on commas, strip, drop empties, rejoin. -/
def get_user_interests (s : List Char) : List Char :=
  let cleaned := pyReplace (pyReplace (pyLower s) phrase []) andStr [',']
  joinCS (((splitComma cleaned).map pyStrip).filter (fun p => p ≠ []))

/-- The extraction algorithm as the specification words it, step by step:
lower-case the input, remove the literal interest phrase, replace the
conjunction with a comma, split on comma, trim whitespace from each piece,
drop empty pieces, rejoin with comma-space. -/
def interestSpecPipeline (s : List Char) : List Char :=
  let lowered := pyLower s
  let phraseRemoved := pyReplace lowered phrase []
  let conjReplaced := pyReplace phraseRemoved andStr [',']
  let pieces := splitComma conjReplaced
  let trimmed := pieces.map pyStrip
  let nonEmpty := trimmed.filter (fun p => p ≠ [])
  joinCS nonEmpty

/-- The filtered list of trimmed keyword pieces the extractor joins. -/
def guiPieces (s : List Char) : List (List Char) :=
  ((splitComma (pyReplace (pyReplace (pyLower s) phrase []) andStr [','])).map
    pyStrip).filter (fun p => p ≠ [])

/-- A one-character string holding the apostrophe. -/
def aposS : String := String.mk [apos]

/-- String-level wrapper of the extractor, used by the pipeline nodes. -/
def get_user_interests_str (s : String) : String :=
  String.mk (get_user_interests s.data)

/-- The free-text search query built by fetch_news_articles in src/app.py
lines 40-41: strip each comma-separated keyword, join all of them with
spaces. -/
def query_app (interests : List Char) : List Char :=
  joinSpace ((splitComma interests).map pyStrip)

/-- The free-text search query built by fetch_news_articles in
src/flask_api.py lines 42-43: strip each comma-separated keyword, join only
the first three with spaces. -/
def query_flask (interests : List Char) : List Char :=
  joinSpace (((splitComma interests).map pyStrip).take 3)

/-- The query as the specification words it for the REPL entry point: split
the keyword string back into keywords on comma and space-join all of them. -/
def querySpecAll (interests : List Char) : List Char :=
  joinSpace ((splitComma interests).map pyStrip)

/-- The query as the specification words it for the HTTP entry point: split
the keyword string back into keywords on comma and space-join the first
three. -/
def querySpecFirstThree (interests : List Char) : List Char :=
  joinSpace (((splitComma interests).map pyStrip).take 3)

/-- One news item as consumed by the pipeline: the five optional fields the
code reads from an API result record. -/
structure Article where
  title : Option String
  source_id : Option String
  description : Option String
  pubDate : Option String
  link : Option String
deriving DecidableEq, Repr

/-- The JSON body of a 2xx answer from the news API, restricted to the keys
the code reads: status, message and results. A missing key is none, matching
dict.get. -/
structure NewsBody where
  status : Option String
  message : Option String
  results : Option (List Article)
deriving DecidableEq

/-- Outcome of the single outbound HTTP GET made by fetch_news_articles.
Redirects are resolved by the client, so the call ends in a transport error
(requests.RequestException: connection failure or timeout), a final non-2xx
status (raise_for_status then raises), or a 2xx response whose JSON body
either parses (some body) or does not (none, response.json raises). -/
inductive HttpOutcome where
  | reqError (e : String)
  | httpError (code : Nat) (e : String)
  | ok (body : Option NewsBody)
deriving DecidableEq

/-- fetch_news_articles from src/app.py lines 35-77. The oracle net maps the
sent query to the HTTP outcome. Transport errors and non-2xx statuses are
caught by the except clauses and yield the empty list; an unparseable 2xx
body raises in response.json and is likewise absorbed; a parsed 2xx body is
checked for a success status marker, any other marker yields the empty list,
otherwise the results list (defaulted to empty when absent) is returned. -/
def fetch_news_articles_app (interests : List Char)
    (net : List Char → HttpOutcome) : List Article :=
  match net (query_app interests) with
  | .reqError _ => []
  | .httpError _ _ => []
  | .ok none => []
  | .ok (some body) =>
    if body.status = some "success" then (body.results).getD [] else []

/-- fetch_news_articles from src/flask_api.py lines 39-68. Same error
absorption as the REPL variant, but a parsed 2xx body is not checked for the
status marker: its results list (defaulted to empty when absent) is returned
directly. -/
def fetch_news_articles_flask (interests : List Char)
    (net : List Char → HttpOutcome) : List Article :=
  match net (query_flask interests) with
  | .reqError _ => []
  | .httpError _ _ => []
  | .ok none => []
  | .ok (some body) => (body.results).getD []

/-- Outcome of the single language-model invocation: the response text, or
the description of the exception the call raised. -/
inductive ModelOutcome where
  | ok (text : String)
  | fail (e : String)
deriving DecidableEq

/-- Fixed empty-batch message of rank_articles in src/app.py line 90. -/
def appEmptyMsg : String := "No recent articles found matching your interests."

/-- Fixed empty-batch message of rank_articles in src/flask_api.py line 79. -/
def flaskEmptyMsg : String := "No articles found matching your interests."

/-- Fixed failure message of rank_articles in src/app.py line 126. -/
def appRankFailMsg : String :=
  "I couldn" ++ aposS ++ "t generate recommendations due to a technical issue."

/-- Failure-message stem of rank_articles in src/flask_api.py line 112; the
description of the caught exception is appended to it. -/
def flaskRankFailStem : String := "Failed to generate recommendations due to: "

/-- The per-article text block built by rank_articles in src/app.py lines
99-106 for one article, with the dict.get default placeholders. -/
def articleBlockApp (a : Article) : String :=
  "Title: " ++ a.title.getD "No title" ++ "\n" ++
  "Source: " ++ a.source_id.getD "Unknown source" ++ "\n" ++
  "Description: " ++ a.description.getD "No description" ++ "\n" ++
  "Published: " ++ a.pubDate.getD "Unknown date" ++ "\n" ++
  "Link: " ++ a.link.getD "No URL"

/-- Python text[:200] on a string, used by the flask ranker to truncate
descriptions. -/
def pyTake200 (s : String) : String := String.mk (s.data.take 200)

/-- The per-article text block built by rank_articles in src/flask_api.py
lines 87-92 for one article. -/
def articleBlockFlask (a : Article) : String :=
  "Title: " ++ a.title.getD "No title" ++ "\n" ++
  "Source: " ++ a.source_id.getD "Unknown" ++ "\n" ++
  "Description: " ++ pyTake200 (a.description.getD "") ++ "..."

/-- Python (blank-line).join of the rendered blocks. -/
def joinBlocks : List String → String
  | [] => ""
  | [b] => b
  | b :: bs => b ++ "\n\n" ++ joinBlocks bs

/-- The prompt assembled by rank_articles in src/app.py lines 108-120 from
the interests and the first ten articles. -/
def promptApp (articles : List Article) (interests : String) : String :=
  "\n**User Interests**: " ++ interests ++
  "\n\n**Task**: From these news articles, select the 3-5 most relevant ones and provide:\n" ++
  "1. A concise summary of each\n2. Why it might interest the user\n" ++
  "3. The publication date and source\n\n**Articles**:\n" ++
  joinBlocks ((articles.take 10).map articleBlockApp) ++
  "\n\n**Format your response as markdown with clear headings for each article**\n"

/-- The prompt assembled by rank_articles in src/flask_api.py lines 94-105
from the interests and the first five articles. -/
def promptFlask (articles : List Article) (interests : String) : String :=
  "\n**User Interests**: " ++ interests ++
  "\n\n**Task**: Select the 3 most relevant articles and provide:\n" ++
  "1. A concise summary\n2. Why it might interest the user\n3. The source\n\n" ++
  "**Articles**:\n" ++
  joinBlocks ((articles.take 5).map articleBlockFlask) ++
  "\n\n**Format as markdown**"

/-- rank_articles from src/app.py lines 84-126. The oracle m maps the prompt
sent to the model to the invocation outcome; the second component counts how
many model invocations the run performed. An empty batch short-circuits to
the fixed empty message with zero invocations. A model failure is caught by
the except clause and yields the fixed failure message, which does not
mention the exception. -/
def rank_articles_app (articles : List Article) (interests : String)
    (m : String → ModelOutcome) : String × Nat :=
  if articles = [] then (appEmptyMsg, 0)
  else
    match m (promptApp articles interests) with
    | .ok t => (t, 1)
    | .fail _ => (appRankFailMsg, 1)

/-- rank_articles from src/flask_api.py lines 74-112. Same shape as the REPL
variant, but the caught exception description is appended to the failure
stem. -/
def rank_articles_flask (articles : List Article) (interests : String)
    (m : String → ModelOutcome) : String × Nat :=
  if articles = [] then (flaskEmptyMsg, 0)
  else
    match m (promptFlask articles interests) with
    | .ok t => (t, 1)
    | .fail e => (flaskRankFailStem ++ e, 1)

/-- The shared pipeline state: the three optional fields of AgentState, with
none standing for an absent key. The same shape doubles as the delta a node
returns, where none means the key is not in the returned dict. -/
structure AgentState where
  interests : Option String
  articles : Option (List Article)
  recommendations : Option String
deriving DecidableEq

/-- LangGraph merge of a node delta into the current state: a key present in
the delta overwrites the state, an absent key leaves it. -/
def mergeState (st d : AgentState) : AgentState where
  interests := match d.interests with | some v => some v | none => st.interests
  articles := match d.articles with | some v => some v | none => st.articles
  recommendations :=
    match d.recommendations with | some v => some v | none => st.recommendations

/-- The fresh state app_graph.invoke starts from, with only interests set. -/
def initState (topic : String) : AgentState :=
  { interests := some topic, articles := none, recommendations := none }

/-- extract_interests_node (src/app.py lines 128-132, src/flask_api.py lines
114-118): reads the interests field and returns a dict with only the cleaned
interests. A missing interests key raises, modelled as none. -/
def extract_interests_node (st : AgentState) : Option AgentState :=
  match st.interests with
  | none => none
  | some i =>
    some { interests := some (get_user_interests_str i),
           articles := none, recommendations := none }

/-- fetch_articles_node of src/app.py lines 134-138: reads interests,
returns a dict with only the fetched articles. -/
def fetch_articles_node_app (net : List Char → HttpOutcome)
    (st : AgentState) : Option AgentState :=
  match st.interests with
  | none => none
  | some i =>
    some { interests := none,
           articles := some (fetch_news_articles_app i.data net),
           recommendations := none }

/-- fetch_articles_node of src/flask_api.py lines 120-123. -/
def fetch_articles_node_flask (net : List Char → HttpOutcome)
    (st : AgentState) : Option AgentState :=
  match st.interests with
  | none => none
  | some i =>
    some { interests := none,
           articles := some (fetch_news_articles_flask i.data net),
           recommendations := none }

/-- rank_node of src/app.py lines 140-146: reads articles and interests and
returns a dict with only the recommendations. -/
def rank_node_app (m : String → ModelOutcome) (st : AgentState) :
    Option AgentState :=
  match st.articles, st.interests with
  | some arts, some i =>
    some { interests := none, articles := none,
           recommendations := some (rank_articles_app arts i m).1 }
  | _, _ => none

/-- Placeholder for the description of the validation error raised when
rank_node in src/flask_api.py builds RankInput from a state with a missing
field; the except clause there turns it into a recommendations string. -/
def validationErrMsg : String := "validation error for RankInput"

/-- rank_node of src/flask_api.py lines 125-134: like the REPL variant, but
its own try block catches a failed RankInput construction and still returns
a recommendations string built from the failure stem. -/
def rank_node_flask (m : String → ModelOutcome) (st : AgentState) :
    Option AgentState :=
  match st.articles, st.interests with
  | some arts, some i =>
    some { interests := none, articles := none,
           recommendations := some (rank_articles_flask arts i m).1 }
  | _, _ =>
    some { interests := none, articles := none,
           recommendations := some (flaskRankFailStem ++ validationErrMsg) }

/-- One pipeline step: run the node on the state and merge its delta. -/
def stepNode (node : AgentState → Option AgentState) (st : AgentState) :
    Option AgentState :=
  (node st).map (mergeState st)

/-- The compiled REPL pipeline: extract, then fetch, then rank. -/
def runPipelineApp (topic : String) (net : List Char → HttpOutcome)
    (m : String → ModelOutcome) : Option AgentState :=
  stepNode extract_interests_node (initState topic) >>=
    stepNode (fetch_articles_node_app net) >>=
      stepNode (rank_node_app m)

/-- The compiled HTTP pipeline app_graph: extract, then fetch, then rank. -/
def runPipelineFlask (topic : String) (net : List Char → HttpOutcome)
    (m : String → ModelOutcome) : Option AgentState :=
  stepNode extract_interests_node (initState topic) >>=
    stepNode (fetch_articles_node_flask net) >>=
      stepNode (rank_node_flask m)

/-- The request body of a POST to the recommend route, as seen through
request.get_json inside the try block: badJson when parsing raises
(unparseable body or unsupported content type), jsonNull when the body is
the JSON null so get_json returns None and the attribute access raises,
nonDict when the body parses to a non-object so the attribute access raises,
jsonDict with the optional topic value otherwise. -/
inductive ReqBody where
  | badJson (e : String)
  | jsonNull
  | nonDict (e : String)
  | jsonDict (topic : Option String)
deriving DecidableEq

/-- An HTTP response of the recommend route: status code, optional error
field, optional recommendations field. -/
structure Resp where
  status : Nat
  error : Option String
  recommendations : Option String
deriving DecidableEq

/-- Description of the attribute error raised when .get is called on the
None returned by get_json for a JSON null body. -/
def noneGetErrMsg : String := "NoneType object has no attribute get"

/-- The recommend handler of src/flask_api.py lines 163-185. The oracle pipe
stands for app_graph.invoke on the given topic, returning the final state
recommendations field (None modelled as none) or the description of a raised
exception; the second component of the result counts pipeline invocations.
Any exception inside the try block is reported as a 500 response carrying the
error text; a falsy topic (absent, or the empty string) is reported as a 400
response before the pipeline runs. -/
def recommend (b : ReqBody)
    (pipe : String → Except String (Option String)) : Resp × Nat :=
  match b with
  | .badJson e => ({ status := 500, error := some e, recommendations := none }, 0)
  | .jsonNull =>
    ({ status := 500, error := some noneGetErrMsg, recommendations := none }, 0)
  | .nonDict e => ({ status := 500, error := some e, recommendations := none }, 0)
  | .jsonDict topic =>
    match topic with
    | none =>
      ({ status := 400, error := some "Missing required field: topic",
         recommendations := none }, 0)
    | some t =>
      if t = "" then
        ({ status := 400, error := some "Missing required field: topic",
           recommendations := none }, 0)
      else
        match pipe t with
        | .error e =>
          ({ status := 500, error := some e, recommendations := none }, 1)
        | .ok r =>
          ({ status := 200, error := none,
             recommendations := some (r.getD "No recommendations available") }, 1)

/-- The interest phrase with every letter upper-cased, for exercising the
case-insensitive removal. -/
def phraseUpper : List Char := phrase.map Char.toUpper

/-- An input on which removing one occurrence of the interest phrase glues
the surrounding text into a fresh occurrence of the phrase. -/
def cexInput : List Char := ['i', apos] ++ phrase ++ "m interested in".toList

/-- A sample article used in concrete counterexamples and witnesses. -/
def a0 : Article :=
  { title := some "T", source_id := none, description := none,
    pubDate := none, link := none }

/-- A 2xx JSON body whose status marker is not the success marker but whose
results list is nonempty. -/
def cexBody : NewsBody :=
  { status := some "error", message := none, results := some [a0] }


/-! Basic facts about the occurrence test hasSub and the initial-segment
test pfx. -/

theorem pfx_refl (l : List Char) : pfx l l = true := by
  induction l with
  | nil => rfl
  | cons a as ih => simp [pfx, ih]

theorem pfx_append (p u v : List Char) (h : pfx p u = true) :
    pfx p (u ++ v) = true := by
  induction p generalizing u with
  | nil => rfl
  | cons a as ih =>
    cases u with
    | nil => simp [pfx] at h
    | cons b bs =>
      simp [pfx] at h
      simp [pfx, h.1, ih bs h.2]

theorem pfx_nil_right (p : List Char) (h : p ≠ []) : pfx p [] = false := by
  cases p with
  | nil => exact absurd rfl h
  | cons a as => rfl

theorem pfx_cons_of_ne (p0 c : Char) (pr w : List Char) (h : p0 ≠ c) :
    pfx (p0 :: pr) (c :: w) = false := by
  simp [pfx, h]

theorem hasSub_of_pfx (s pat : List Char) (h : pfx pat s = true) :
    hasSub s pat = true := by
  cases s with
  | nil => simpa [hasSub] using h
  | cons c t => simp [hasSub, h]

theorem hasSub_nil_pat (s : List Char) : hasSub s [] = true := by
  cases s with
  | nil => rfl
  | cons c t => simp [hasSub, pfx]

theorem pat_ne_nil_of_hasSub_false (s pat : List Char) (h : hasSub s pat = false) :
    pat ≠ [] := by
  intro he
  rw [he, hasSub_nil_pat] at h
  simp at h

theorem hasSub_cons_iff (c : Char) (t pat : List Char) :
    hasSub (c :: t) pat = (pfx pat (c :: t) || hasSub t pat) := rfl

theorem hasSub_nil (pat : List Char) : hasSub [] pat = pfx pat [] := rfl

theorem hasSub_append_left (u v pat : List Char) (h : hasSub v pat = true) :
    hasSub (u ++ v) pat = true := by
  induction u with
  | nil => simpa using h
  | cons a as ih => simp [hasSub_cons_iff, ih]

theorem hasSub_append_right (u v pat : List Char) (h : hasSub u pat = true) :
    hasSub (u ++ v) pat = true := by
  induction u with
  | nil =>
    rw [hasSub_nil] at h
    exact hasSub_of_pfx _ _ (pfx_append _ _ _ h)
  | cons a as ih =>
    rw [hasSub_cons_iff] at h
    rcases Bool.or_eq_true_iff.mp h with h | h
    · exact hasSub_of_pfx _ _ (pfx_append _ _ _ h)
    · simp [hasSub_cons_iff, ih h]

theorem pfx_append_cases (pat u v : List Char) (h : pfx pat (u ++ v) = true) :
    pfx pat u = true ∨ ∃ q, pat = u ++ q ∧ pfx q v = true := by
  induction u generalizing pat with
  | nil => exact Or.inr ⟨pat, rfl, h⟩
  | cons b bs ih =>
    cases pat with
    | nil => exact Or.inl rfl
    | cons p0 pr =>
      simp only [List.cons_append, pfx, Bool.and_eq_true, beq_iff_eq] at h
      rcases ih pr h.2 with hl | ⟨q, hq, hqv⟩
      · exact Or.inl (by simp [pfx, h.1, hl])
      · exact Or.inr ⟨q, by simp [h.1, hq], hqv⟩

theorem hasSub_append_cons (pat u w : List Char) (b : Char)
    (hu : hasSub u pat = false) (hw : hasSub (b :: w) pat = false)
    (hb : b ∉ pat) : hasSub (u ++ b :: w) pat = false := by
  induction u with
  | nil => simpa using hw
  | cons a as ih =>
    rw [hasSub_cons_iff] at hu
    rcases Bool.or_eq_false_iff.mp hu with ⟨hu1, hu2⟩
    rw [List.cons_append, hasSub_cons_iff, Bool.or_eq_false_iff]
    refine ⟨?_, ih hu2⟩
    rw [show a :: (as ++ b :: w) = (a :: as) ++ b :: w from rfl]
    cases hpf : pfx pat ((a :: as) ++ b :: w)
    · rfl
    · exfalso
      rcases pfx_append_cases _ _ _ hpf with hl | ⟨q, hq, hqv⟩
      · rw [hl] at hu1; simp at hu1
      · cases q with
        | nil =>
          rw [List.append_nil] at hq
          rw [hq, pfx_refl] at hu1
          simp at hu1
        | cons q0 qr =>
          simp only [pfx, Bool.and_eq_true, beq_iff_eq] at hqv
          apply hb
          rw [hq, hqv.1]
          exact List.mem_append_right _ (List.mem_cons_self _ _)

/-! Facts about pyReplace: it is the identity when the pattern does not
occur, it introduces only characters of the replacement, and when the
replacement is nonempty and shares no character with the pattern, no
occurrence of the pattern survives the replacement. -/

theorem replaceAux_id (pat rep s : List Char) (n : Nat)
    (h : hasSub s pat = false) : pyReplaceAux pat rep n s = s := by
  induction n generalizing s with
  | zero => rfl
  | succ n ih =>
    cases s with
    | nil => rfl
    | cons c t =>
      rw [hasSub_cons_iff, Bool.or_eq_false_iff] at h
      rw [pyReplaceAux, if_neg (fun hc => by rw [h.1] at hc; simp at hc)]
      rw [ih t h.2]

theorem mem_replaceAux (pat rep s : List Char) (n : Nat) (c : Char)
    (h : c ∈ pyReplaceAux pat rep n s) : c ∈ s ∨ c ∈ rep := by
  induction n generalizing s with
  | zero => exact Or.inl h
  | succ n ih =>
    cases s with
    | nil => exact Or.inl h
    | cons a t =>
      rw [pyReplaceAux] at h
      by_cases hc : pfx pat (a :: t) = true ∧ pat ≠ []
      · rw [if_pos hc] at h
        rcases List.mem_append.mp h with h | h
        · exact Or.inr h
        · rcases ih _ h with h | h
          · exact Or.inl (List.mem_of_mem_drop h)
          · exact Or.inr h
      · rw [if_neg hc] at h
        rcases List.mem_cons.mp h with h | h
        · exact Or.inl (h ▸ List.mem_cons_self _ _)
        · rcases ih _ h with h | h
          · exact Or.inl (List.mem_cons_of_mem _ h)
          · exact Or.inr h

theorem pfx_replaceAux (pat rep q s : List Char) (n : Nat) (hq : q ≠ [])
    (hqp : ∀ a ∈ q, a ∈ pat) (hr : rep ≠ []) (hrp : ∀ a ∈ rep, a ∉ pat)
    (h : pfx q (pyReplaceAux pat rep n s) = true) : pfx q s = true := by
  induction n generalizing s q with
  | zero => exact h
  | succ n ih =>
    cases s with
    | nil =>
      rw [pyReplaceAux] at h
      rw [pfx_nil_right q hq] at h
      simp at h
    | cons c t =>
      rw [pyReplaceAux] at h
      by_cases hc : pfx pat (c :: t) = true ∧ pat ≠ []
      · rw [if_pos hc] at h
        exfalso
        cases q with
        | nil => exact hq rfl
        | cons q0 qr =>
          cases rep with
          | nil => exact hr rfl
          | cons r0 rr =>
            simp only [List.cons_append, pfx, Bool.and_eq_true, beq_iff_eq] at h
            exact hrp r0 (List.mem_cons_self _ _)
              (h.1 ▸ hqp q0 (List.mem_cons_self _ _))
      · rw [if_neg hc] at h
        cases q with
        | nil => rfl
        | cons q0 qr =>
          simp only [pfx, Bool.and_eq_true, beq_iff_eq] at h
          cases qr with
          | nil => simp [pfx, h.1]
          | cons q1 qs =>
            have hqr : pfx (q1 :: qs) t = true :=
              ih (q1 :: qs) t (by simp)
                (fun a ha => hqp a (List.mem_cons_of_mem _ ha)) h.2
            simp [pfx, h.1, hqr]

theorem hasSub_prepend_clean (pat u w : List Char) (hp : pat ≠ [])
    (hu : ∀ a ∈ u, a ∉ pat) (hw : hasSub w pat = false) :
    hasSub (u ++ w) pat = false := by
  induction u with
  | nil => simpa using hw
  | cons a as ih =>
    rw [List.cons_append, hasSub_cons_iff, Bool.or_eq_false_iff]
    constructor
    · cases pat with
      | nil => exact absurd rfl hp
      | cons p0 pr =>
        cases hpf : pfx (p0 :: pr) (a :: (as ++ w))
        · rfl
        · exfalso
          simp only [pfx, Bool.and_eq_true, beq_iff_eq] at hpf
          exact hu a (List.mem_cons_self _ _) (hpf.1 ▸ List.mem_cons_self _ _)
    · exact ih (fun a ha => hu a (List.mem_cons_of_mem _ ha))

theorem replaceAux_no_pat (pat rep s : List Char) (n : Nat) (hp : pat ≠ [])
    (hr : rep ≠ []) (hrp : ∀ a ∈ rep, a ∉ pat) (hn : s.length ≤ n) :
    hasSub (pyReplaceAux pat rep n s) pat = false := by
  induction n generalizing s with
  | zero =>
    have : s = [] := List.length_eq_zero.mp (Nat.le_zero.mp hn)
    subst this
    rw [show pyReplaceAux pat rep 0 [] = [] from rfl, hasSub_nil,
      pfx_nil_right pat hp]
  | succ n ih =>
    cases s with
    | nil =>
      rw [show pyReplaceAux pat rep (n + 1) [] = [] from rfl, hasSub_nil,
        pfx_nil_right pat hp]
    | cons c t =>
      rw [pyReplaceAux]
      by_cases hc : pfx pat (c :: t) = true ∧ pat ≠ []
      · rw [if_pos hc]
        apply hasSub_prepend_clean pat rep _ hp hrp
        apply ih
        have : pat.length ≥ 1 := by
          cases pat with
          | nil => exact absurd rfl hp
          | cons _ _ => exact Nat.succ_le_succ (Nat.zero_le _)
        simp only [List.length_drop, List.length_cons] at *
        omega
      · rw [if_neg hc]
        have hpfx : pfx pat (c :: t) = false := by
          cases hpf : pfx pat (c :: t)
          · rfl
          · exact absurd ⟨hpf, hp⟩ hc
        have iht : hasSub (pyReplaceAux pat rep n t) pat = false :=
          ih t (by simpa using Nat.le_of_succ_le_succ hn)
        rw [hasSub_cons_iff, Bool.or_eq_false_iff]
        refine ⟨?_, iht⟩
        obtain ⟨p0, pr, rfl⟩ := List.exists_cons_of_ne_nil hp
        cases hpf : pfx (p0 :: pr) (c :: pyReplaceAux (p0 :: pr) rep n t)
        · rfl
        · exfalso
          simp only [pfx, Bool.and_eq_true, beq_iff_eq] at hpf
          cases pr with
          | nil => simp [pfx, hpf.1] at hpfx
          | cons p1 ps =>
            have hq : pfx (p1 :: ps) t = true :=
              pfx_replaceAux (p0 :: p1 :: ps) rep (p1 :: ps) t n (by simp)
                (fun a ha => List.mem_cons_of_mem _ ha) hr hrp hpf.2
            simp [pfx, hpf.1, hq] at hpfx

theorem replace_id (s pat rep : List Char) (h : hasSub s pat = false) :
    pyReplace s pat rep = s :=
  replaceAux_id pat rep s s.length h

theorem mem_replace (s pat rep : List Char) (c : Char)
    (h : c ∈ pyReplace s pat rep) : c ∈ s ∨ c ∈ rep :=
  mem_replaceAux pat rep s s.length c h

theorem replace_no_pat (s pat rep : List Char) (hp : pat ≠ []) (hr : rep ≠ [])
    (hrp : ∀ a ∈ rep, a ∉ pat) :
    hasSub (pyReplace s pat rep) pat = false :=
  replaceAux_no_pat pat rep s s.length hp hr hrp (Nat.le_refl _)

/-! Facts about splitComma: the result is never empty, its first piece is an
initial segment of the input, pieces contain no comma, their characters come
from the input, pieces of a pattern-free string are pattern-free, and
splitting undoes appending a comma-free piece before a comma. -/

theorem splitComma_ne_nil (s : List Char) : splitComma s ≠ [] := by
  cases s with
  | nil => simp [splitComma]
  | cons c t =>
    rw [splitComma]
    by_cases hc : c = ','
    · simp [hc]
    · rw [if_neg hc]
      cases splitComma t with
      | nil => simp
      | cons p ps => simp

theorem splitComma_head_append (t p : List Char) (ps : List (List Char))
    (h : splitComma t = p :: ps) : ∃ r, t = p ++ r := by
  induction t generalizing p ps with
  | nil =>
    rw [splitComma] at h
    injection h with h1 _
    exact ⟨[], by rw [← h1]; rfl⟩
  | cons c u ih =>
    rw [splitComma] at h
    by_cases hc : c = ','
    · rw [if_pos hc] at h
      injection h with h1 _
      exact ⟨c :: u, by rw [← h1]; rfl⟩
    · rw [if_neg hc] at h
      cases hu : splitComma u with
      | nil => exact absurd hu (splitComma_ne_nil u)
      | cons q qs =>
        rw [hu] at h
        injection h with h1 _
        obtain ⟨r, hr⟩ := ih q qs hu
        exact ⟨r, by rw [← h1, List.cons_append, ← hr]⟩

theorem hasSub_splitComma (s pat p : List Char) (h : hasSub s pat = false)
    (hm : p ∈ splitComma s) : hasSub p pat = false := by
  induction s generalizing p with
  | nil =>
    rw [splitComma] at hm
    rcases List.mem_singleton.mp hm with rfl
    exact h
  | cons c t ih =>
    rw [hasSub_cons_iff, Bool.or_eq_false_iff] at h
    rw [splitComma] at hm
    by_cases hc : c = ','
    · rw [if_pos hc] at hm
      rcases List.mem_cons.mp hm with rfl | hm
      · rw [hasSub_nil, pfx_nil_right pat (pat_ne_nil_of_hasSub_false t pat h.2)]
      · exact ih _ h.2 hm
    · rw [if_neg hc] at hm
      cases hu : splitComma t with
      | nil => exact absurd hu (splitComma_ne_nil t)
      | cons q qs =>
        rw [hu] at hm
        rcases List.mem_cons.mp hm with rfl | hm
        · have hqmem : q ∈ splitComma t := by
            rw [hu]; exact List.mem_cons_self _ _
          have hq : hasSub q pat = false := ih _ h.2 hqmem
          rw [hasSub_cons_iff, Bool.or_eq_false_iff]
          refine ⟨?_, hq⟩
          obtain ⟨r, hr⟩ := splitComma_head_append t q qs hu
          cases hpf : pfx pat (c :: q)
          · rfl
          · exfalso
            have hful : pfx pat (c :: t) = true := by
              rw [hr, show c :: (q ++ r) = (c :: q) ++ r from rfl]
              exact pfx_append _ _ _ hpf
            rw [hful] at h
            simp at h
        · have hpmem : p ∈ splitComma t := by
            rw [hu]; exact List.mem_cons_of_mem _ hm
          exact ih _ h.2 hpmem

theorem mem_of_mem_splitComma (s p : List Char) (a : Char) (ha : a ∈ p)
    (hm : p ∈ splitComma s) : a ∈ s := by
  induction s generalizing p with
  | nil =>
    rw [splitComma] at hm
    rcases List.mem_singleton.mp hm with rfl
    exact absurd ha (List.not_mem_nil a)
  | cons c t ih =>
    rw [splitComma] at hm
    by_cases hc : c = ','
    · rw [if_pos hc] at hm
      rcases List.mem_cons.mp hm with rfl | hm
      · exact absurd ha (List.not_mem_nil a)
      · exact List.mem_cons_of_mem _ (ih p ha hm)
    · rw [if_neg hc] at hm
      cases hu : splitComma t with
      | nil => exact absurd hu (splitComma_ne_nil t)
      | cons q qs =>
        rw [hu] at hm
        rcases List.mem_cons.mp hm with rfl | hm
        · rcases List.mem_cons.mp ha with rfl | ha
          · exact List.mem_cons_self _ _
          · have hqmem : q ∈ splitComma t := by
              rw [hu]; exact List.mem_cons_self _ _
            exact List.mem_cons_of_mem _ (ih q ha hqmem)
        · have hpmem : p ∈ splitComma t := by
            rw [hu]; exact List.mem_cons_of_mem _ hm
          exact List.mem_cons_of_mem _ (ih p ha hpmem)

theorem comma_notMem_splitComma (s p : List Char) (hm : p ∈ splitComma s) :
    (',' : Char) ∉ p := by
  induction s generalizing p with
  | nil =>
    rw [splitComma] at hm
    rcases List.mem_singleton.mp hm with rfl
    exact List.not_mem_nil _
  | cons c t ih =>
    rw [splitComma] at hm
    by_cases hc : c = ','
    · rw [if_pos hc] at hm
      rcases List.mem_cons.mp hm with rfl | hm
      · exact List.not_mem_nil _
      · exact ih p hm
    · rw [if_neg hc] at hm
      cases hu : splitComma t with
      | nil => exact absurd hu (splitComma_ne_nil t)
      | cons q qs =>
        rw [hu] at hm
        rcases List.mem_cons.mp hm with rfl | hm
        · intro hmem
          rcases List.mem_cons.mp hmem with he | hmem
          · exact hc he.symm
          · have hqmem : q ∈ splitComma t := by
              rw [hu]; exact List.mem_cons_self _ _
            exact ih q hqmem hmem
        · have hpmem : p ∈ splitComma t := by
            rw [hu]; exact List.mem_cons_of_mem _ hm
          exact ih p hpmem

theorem splitComma_no_comma (p : List Char) (h : (',' : Char) ∉ p) :
    splitComma p = [p] := by
  induction p with
  | nil => rfl
  | cons c t ih =>
    have hc : ¬c = ',' := fun he => h (by rw [he]; exact List.mem_cons_self _ _)
    rw [splitComma, if_neg hc, ih (fun hm => h (List.mem_cons_of_mem _ hm))]

theorem splitComma_append_comma (p w : List Char) (h : (',' : Char) ∉ p) :
    splitComma (p ++ ',' :: w) = p :: splitComma w := by
  induction p with
  | nil => simp [splitComma]
  | cons c t ih =>
    have hc : ¬c = ',' := fun he => h (by rw [he]; exact List.mem_cons_self _ _)
    rw [List.cons_append, splitComma, if_neg hc,
      ih (fun hm => h (List.mem_cons_of_mem _ hm))]

/-! Facts about pyStrip: idempotence, absorption of a prepended space,
character membership, and preservation of pattern-freeness. -/

theorem dropWhile_idem (q : Char → Bool) (l : List Char) :
    List.dropWhile q (List.dropWhile q l) = List.dropWhile q l := by
  induction l with
  | nil => rfl
  | cons a t ih =>
    rw [List.dropWhile_cons]
    by_cases h : q a = true
    · rw [if_pos h]; exact ih
    · rw [if_neg h, List.dropWhile_cons,
        if_neg (fun hc => h hc)]

theorem lstrip_idem (l : List Char) : lstrip (lstrip l) = lstrip l :=
  dropWhile_idem isSpaceChar l

theorem rstrip_idem (l : List Char) : rstrip (rstrip l) = rstrip l := by
  unfold rstrip
  rw [List.reverse_reverse, dropWhile_idem]

theorem lstrip_cons_of_space (a : Char) (l : List Char)
    (h : isSpaceChar a = true) : lstrip (a :: l) = lstrip l := by
  unfold lstrip
  rw [List.dropWhile_cons, if_pos h]

theorem lstrip_cons_of_not_space (a : Char) (l : List Char)
    (h : isSpaceChar a = false) : lstrip (a :: l) = a :: l := by
  unfold lstrip
  rw [List.dropWhile_cons, if_neg (by rw [h]; simp)]

theorem rstrip_cons (a : Char) (t : List Char) :
    rstrip (a :: t) =
      if rstrip t = [] then (if isSpaceChar a = true then [] else [a])
      else a :: rstrip t := by
  unfold rstrip
  rw [List.reverse_cons, List.dropWhile_append]
  by_cases h : (List.dropWhile isSpaceChar t.reverse).isEmpty = true
  · rw [if_pos h]
    have hnil : List.dropWhile isSpaceChar t.reverse = [] :=
      List.isEmpty_iff.mp h
    rw [if_pos (by rw [hnil]; rfl)]
    by_cases ha : isSpaceChar a = true
    · rw [if_pos ha]
      simp [List.dropWhile_cons, ha]
    · rw [if_neg ha]
      simp [List.dropWhile_cons, ha]
  · rw [if_neg h]
    have hnnil : List.dropWhile isSpaceChar t.reverse ≠ [] := by
      intro hc
      rw [hc] at h
      exact h rfl
    rw [if_neg (fun hc => hnnil (by
      have := congrArg List.reverse hc
      rwa [List.reverse_reverse] at this))]
    rw [List.reverse_append]
    rfl

theorem head_not_space_of_lstrip_fix (a : Char) (t : List Char)
    (h : lstrip (a :: t) = a :: t) : isSpaceChar a = false := by
  cases ha : isSpaceChar a
  · rfl
  · exfalso
    rw [lstrip_cons_of_space a t ha] at h
    have hle : (lstrip t).length ≤ t.length :=
      (List.dropWhile_sublist isSpaceChar).length_le
    have := congrArg List.length h
    simp only [List.length_cons] at this
    omega

theorem lstrip_fix_rstrip (z : List Char) (h : lstrip z = z) :
    lstrip (rstrip z) = rstrip z := by
  cases z with
  | nil => rfl
  | cons a t =>
    have ha : isSpaceChar a = false := head_not_space_of_lstrip_fix a t h
    rw [rstrip_cons]
    by_cases hr : rstrip t = []
    · rw [if_pos hr, if_neg (by rw [ha]; simp)]
      exact lstrip_cons_of_not_space a [] ha
    · rw [if_neg hr]
      exact lstrip_cons_of_not_space a (rstrip t) ha

theorem strip_idem (p : List Char) : pyStrip (pyStrip p) = pyStrip p := by
  unfold pyStrip
  rw [lstrip_fix_rstrip (lstrip p) (lstrip_idem p), rstrip_idem]

theorem strip_space_cons (x : List Char) : pyStrip (' ' :: x) = pyStrip x := by
  unfold pyStrip
  rw [lstrip_cons_of_space ' ' x (by decide)]

theorem strip_decomp (p : List Char) : ∃ u w, p = u ++ (pyStrip p ++ w) := by
  refine ⟨List.takeWhile isSpaceChar p, (List.takeWhile isSpaceChar
    (lstrip p).reverse).reverse, ?_⟩
  have h1 : p = List.takeWhile isSpaceChar p ++ lstrip p :=
    (List.takeWhile_append_dropWhile _ _).symm
  have h2 : lstrip p = pyStrip p ++
      (List.takeWhile isSpaceChar (lstrip p).reverse).reverse := by
    have h3 : (lstrip p).reverse =
        List.takeWhile isSpaceChar (lstrip p).reverse ++
          List.dropWhile isSpaceChar (lstrip p).reverse :=
      (List.takeWhile_append_dropWhile _ _).symm
    have h4 := congrArg List.reverse h3
    rw [List.reverse_reverse, List.reverse_append] at h4
    exact h4
  rw [← h2, ← h1]

theorem hasSub_strip (p pat : List Char) (h : hasSub p pat = false) :
    hasSub (pyStrip p) pat = false := by
  obtain ⟨u, w, hd⟩ := strip_decomp p
  cases hs : hasSub (pyStrip p) pat
  · rfl
  · exfalso
    have : hasSub p pat = true := by
      rw [hd]
      exact hasSub_append_left _ _ _ (hasSub_append_right _ _ _ hs)
    rw [this] at h
    simp at h

theorem mem_strip (p : List Char) (a : Char) (h : a ∈ pyStrip p) : a ∈ p := by
  obtain ⟨u, w, hd⟩ := strip_decomp p
  rw [hd]
  exact List.mem_append_right _ (List.mem_append_left _ h)

/-! Facts about joinCS: unfolding equations, character membership and
preservation of pattern-freeness for patterns avoiding comma and space. -/

theorem joinCS_nil : joinCS [] = [] := rfl

theorem joinCS_single (p : List Char) : joinCS [p] = p := rfl

theorem joinCS_cons_cons (p q : List Char) (r : List (List Char)) :
    joinCS (p :: q :: r) = p ++ ',' :: ' ' :: joinCS (q :: r) := rfl

theorem mem_joinCS (L : List (List Char)) (a : Char) (h : a ∈ joinCS L) :
    (∃ p ∈ L, a ∈ p) ∨ a = ',' ∨ a = ' ' := by
  induction L with
  | nil => exact absurd h (List.not_mem_nil a)
  | cons p ps ih =>
    cases ps with
    | nil =>
      rw [joinCS_single] at h
      exact Or.inl ⟨p, List.mem_cons_self _ _, h⟩
    | cons q r =>
      rw [joinCS_cons_cons] at h
      rcases List.mem_append.mp h with h | h
      · exact Or.inl ⟨p, List.mem_cons_self _ _, h⟩
      · rcases List.mem_cons.mp h with rfl | h
        · exact Or.inr (Or.inl rfl)
        · rcases List.mem_cons.mp h with rfl | h
          · exact Or.inr (Or.inr rfl)
          · rcases ih h with ⟨x, hx, hax⟩ | h
            · exact Or.inl ⟨x, List.mem_cons_of_mem _ hx, hax⟩
            · exact Or.inr h

theorem hasSub_joinCS (L : List (List Char)) (pat : List Char) (hp : pat ≠ [])
    (hc : (',' : Char) ∉ pat) (hs : (' ' : Char) ∉ pat)
    (h : ∀ p ∈ L, hasSub p pat = false) : hasSub (joinCS L) pat = false := by
  induction L with
  | nil => rw [joinCS_nil, hasSub_nil, pfx_nil_right pat hp]
  | cons p ps ih =>
    cases ps with
    | nil =>
      rw [joinCS_single]
      exact h p (List.mem_cons_self _ _)
    | cons q r =>
      rw [joinCS_cons_cons]
      obtain ⟨p0, pr, rfl⟩ := List.exists_cons_of_ne_nil hp
      have hjoin : hasSub (joinCS (q :: r)) (p0 :: pr) = false :=
        ih (fun x hx => h x (List.mem_cons_of_mem _ hx))
      have hsp : hasSub (' ' :: joinCS (q :: r)) (p0 :: pr) = false := by
        rw [hasSub_cons_iff, Bool.or_eq_false_iff]
        refine ⟨?_, hjoin⟩
        exact pfx_cons_of_ne p0 ' ' pr _
          (fun he => hs (by rw [← he]; exact List.mem_cons_self _ _))
      have hcsp : hasSub (',' :: ' ' :: joinCS (q :: r)) (p0 :: pr) = false := by
        rw [hasSub_cons_iff, Bool.or_eq_false_iff]
        refine ⟨?_, hsp⟩
        exact pfx_cons_of_ne p0 ',' pr _
          (fun he => hc (by rw [← he]; exact List.mem_cons_self _ _))
      exact hasSub_append_cons (p0 :: pr) p (' ' :: joinCS (q :: r)) ','
        (h p (List.mem_cons_self _ _)) hcsp
        (fun hm => hc hm)

/-! Facts about the ASCII case model: lowering produces no uppercase letter
and is idempotent. -/

theorem lowerChar_of_not_upper (c : Char) (h : ¬(65 ≤ c.toNat ∧ c.toNat ≤ 90)) :
    lowerChar c = c := by
  unfold lowerChar
  rw [if_neg h]

theorem isUpperChar_lowerChar (c : Char) : isUpperChar (lowerChar c) = false := by
  unfold lowerChar
  by_cases h : 65 ≤ c.toNat ∧ c.toNat ≤ 90
  · rw [if_pos h]
    obtain ⟨h1, h2⟩ := h
    generalize c.toNat = k at h1 h2
    interval_cases k <;> decide
  · rw [if_neg h]
    unfold isUpperChar
    rcases Nat.lt_or_ge c.toNat 65 with hlt | hge
    · simp [Nat.not_le_of_lt hlt]
    · have : ¬c.toNat ≤ 90 := fun hc => h ⟨hge, hc⟩
      simp [this]

theorem lowerChar_idem (c : Char) : lowerChar (lowerChar c) = lowerChar c := by
  apply lowerChar_of_not_upper
  intro hc
  have := isUpperChar_lowerChar c
  unfold isUpperChar at this
  rw [Bool.and_eq_false_iff] at this
  rcases this with h | h
  · exact absurd (decide_eq_true hc.1) (by rw [h]; simp)
  · exact absurd (decide_eq_true hc.2) (by rw [h]; simp)

theorem not_upper_of_lower_fix (c : Char) (h : lowerChar c = c) :
    isUpperChar c = false := by
  rw [← h]
  exact isUpperChar_lowerChar c

theorem map_fix (f : Char → Char) (l : List Char) (h : ∀ a ∈ l, f a = a) :
    l.map f = l := by
  induction l with
  | nil => rfl
  | cons a t ih =>
    rw [List.map_cons, h a (List.mem_cons_self _ _),
      ih (fun x hx => h x (List.mem_cons_of_mem _ hx))]

/-! Structure of the extractor output: the output is the comma-space join of
its piece list, and each piece is nonempty, trimmed, comma-free, free of the
conjunction pattern, and fixed by lowering. -/

theorem gui_eq_join (s : List Char) :
    get_user_interests s = joinCS (guiPieces s) := rfl

theorem mem_guiPieces (s p : List Char) (hm : p ∈ guiPieces s) :
    p ≠ [] ∧ pyStrip p = p ∧ (',' : Char) ∉ p ∧ hasSub p andStr = false ∧
      ∀ a ∈ p, lowerChar a = a := by
  unfold guiPieces at hm
  rw [List.mem_filter] at hm
  obtain ⟨hmap, hne⟩ := hm
  rw [List.mem_map] at hmap
  obtain ⟨q, hq, rfl⟩ := hmap
  have hne2 : pyStrip q ≠ [] := by
    intro hc
    rw [hc] at hne
    simp at hne
  have hnoand : hasSub
      (pyReplace (pyReplace (pyLower s) phrase []) andStr [',']) andStr = false :=
    replace_no_pat _ _ _ (by decide) (by decide) (by decide)
  refine ⟨hne2, strip_idem q, ?_, ?_, ?_⟩
  · exact fun hc => comma_notMem_splitComma _ q hq (mem_strip q ',' hc)
  · exact hasSub_strip q andStr (hasSub_splitComma _ andStr q hnoand hq)
  · intro a ha
    have has : a ∈ pyReplace (pyReplace (pyLower s) phrase []) andStr [','] :=
      mem_of_mem_splitComma _ q a (mem_strip q a ha) hq
    rcases mem_replace _ _ _ _ has with h1 | h1
    · rcases mem_replace _ _ _ _ h1 with h2 | h2
      · unfold pyLower at h2
        rw [List.mem_map] at h2
        obtain ⟨c, _, rfl⟩ := h2
        exact lowerChar_idem c
      · exact absurd h2 (List.not_mem_nil a)
    · rcases List.mem_singleton.mp h1 with rfl
      decide

theorem gui_chars_lower (s : List Char) :
    ∀ a ∈ get_user_interests s, lowerChar a = a := by
  intro a ha
  rw [gui_eq_join] at ha
  rcases mem_joinCS _ a ha with ⟨p, hp, hap⟩ | h | h
  · exact (mem_guiPieces s p hp).2.2.2.2 a hap
  · rw [h]; decide
  · rw [h]; decide

theorem gui_no_and (s : List Char) :
    hasSub (get_user_interests s) andStr = false := by
  rw [gui_eq_join]
  apply hasSub_joinCS _ _ (by decide) (by decide) (by decide)
  intro p hp
  exact (mem_guiPieces s p hp).2.2.2.1

/-! Rebuilding: splitting, trimming and filtering the comma-space join of a
list of nonempty trimmed comma-free pieces returns exactly that list. This
drives idempotence of the extractor on outputs free of the interest
phrase. -/

theorem procd_space (u : List Char) :
    ((splitComma (' ' :: u)).map pyStrip).filter (fun p => p ≠ []) =
    ((splitComma u).map pyStrip).filter (fun p => p ≠ []) := by
  cases hu : splitComma u with
  | nil => exact absurd hu (splitComma_ne_nil u)
  | cons q qs =>
    have hsp : splitComma (' ' :: u) = (' ' :: q) :: qs := by
      rw [splitComma, if_neg (by decide : ¬(' ' = ',')), hu]
    rw [hsp, List.map_cons, List.map_cons, strip_space_cons]

theorem rebuild (L : List (List Char))
    (hL : ∀ p ∈ L, p ≠ [] ∧ pyStrip p = p ∧ (',' : Char) ∉ p) :
    ((splitComma (joinCS L)).map pyStrip).filter (fun p => p ≠ []) = L := by
  induction L with
  | nil => rw [joinCS_nil]; decide
  | cons p ps ih =>
    obtain ⟨hpne, hpstrip, hpcomma⟩ := hL p (List.mem_cons_self _ _)
    cases ps with
    | nil =>
      rw [joinCS_single, splitComma_no_comma p hpcomma, List.map_cons,
        List.map_nil, hpstrip, List.filter_cons]
      simp [hpne]
    | cons q r =>
      have ihr := ih (fun x hx => hL x (List.mem_cons_of_mem _ hx))
      rw [joinCS_cons_cons, splitComma_append_comma p _ hpcomma,
        List.map_cons, hpstrip, List.filter_cons]
      rw [if_pos (by simp [hpne])]
      rw [procd_space, ihr]

theorem gui_idem_core (s : List Char)
    (h : hasSub (get_user_interests s) phrase = false) :
    get_user_interests (get_user_interests s) = get_user_interests s := by
  have hlow : pyLower (get_user_interests s) = get_user_interests s :=
    map_fix lowerChar _ (gui_chars_lower s)
  have hph : pyReplace (get_user_interests s) phrase [] = get_user_interests s :=
    replace_id _ _ _ h
  have hand : pyReplace (get_user_interests s) andStr [','] =
      get_user_interests s :=
    replace_id _ _ _ (gui_no_and s)
  have hre : guiPieces (get_user_interests s) =
      ((splitComma (get_user_interests s)).map pyStrip).filter
        (fun p => p ≠ []) := by
    unfold guiPieces
    rw [hlow, hph, hand]
  rw [gui_eq_join (get_user_interests s), hre, gui_eq_join s,
    rebuild (guiPieces s) (fun p hp =>
      ⟨(mem_guiPieces s p hp).1, (mem_guiPieces s p hp).2.1,
        (mem_guiPieces s p hp).2.2.1⟩)]

/-! The claims. -/

/-- C4: for every input string, get_user_interests lower-cases the input,
removes the literal interest phrase (in any original case, since lowering
happens first), replaces every occurrence of the conjunction substring with
a comma (also inside words, so the android input is mangled), splits on
commas, trims whitespace from each piece, drops empty pieces, and rejoins
with comma-space. Stated as equality with the step-by-step pipeline worded
by the specification, plus the two concrete behaviours the claim calls
out. -/
theorem claim4_extractor_algorithm :
    (∀ s, get_user_interests s = interestSpecPipeline s) ∧
    get_user_interests "android phones".toList = "roid phones".toList ∧
    get_user_interests (phraseUpper ++ " tech".toList) = "tech".toList :=
  ⟨fun _ => rfl, by decide, by decide⟩

/-- C9: for every input string, the extractor output is in normal form: it
is the comma-space join of a list of nonempty trimmed pieces, contains no
uppercase letter, and contains no occurrence of the conjunction
substring. -/
theorem claim9_normal_form (s : List Char) :
    (∃ L, get_user_interests s = joinCS L ∧
      ∀ p ∈ L, p ≠ [] ∧ pyStrip p = p) ∧
    (∀ a ∈ get_user_interests s, isUpperChar a = false) ∧
    hasSub (get_user_interests s) andStr = false := by
  refine ⟨⟨guiPieces s, gui_eq_join s, fun p hp =>
    ⟨(mem_guiPieces s p hp).1, (mem_guiPieces s p hp).2.1⟩⟩, ?_, gui_no_and s⟩
  intro a ha
  exact not_upper_of_lower_fix a (gui_chars_lower s a ha)

/-- C6 counterexample: the extractor is not idempotent on all of its own
outputs. On cexInput the phrase removal glues together a fresh occurrence of
the interest phrase, so the output is exactly that phrase, and extracting it
again yields the empty string instead. -/
theorem claim6_counterexample :
    get_user_interests cexInput = phrase ∧
    get_user_interests (get_user_interests cexInput) ≠
      get_user_interests cexInput :=
  ⟨by decide, by decide⟩

/-- C6 amended: the extractor is idempotent on every input whose output does
not contain the interest phrase; outputs of the extractor can contain that
phrase, and only those escape idempotence. -/
theorem claim6_idem_amended (s : List Char)
    (h : hasSub (get_user_interests s) phrase = false) :
    get_user_interests (get_user_interests s) = get_user_interests s :=
  gui_idem_core s h

/-- C6 witness: a concrete clean input on which the amended idempotence
applies. -/
theorem claim6_witness :
    hasSub (get_user_interests "tech and sports".toList) phrase = false ∧
    get_user_interests (get_user_interests "tech and sports".toList) =
      get_user_interests "tech and sports".toList :=
  ⟨by decide, claim6_idem_amended "tech and sports".toList (by decide)⟩

/-- C3: on an empty article batch both rankers return their fixed
no-articles message and perform zero model invocations, for every interests
string and every model oracle. -/
theorem claim3_empty_batch (ints : String) (m : String → ModelOutcome) :
    rank_articles_app [] ints m = (appEmptyMsg, 0) ∧
    rank_articles_flask [] ints m = (flaskEmptyMsg, 0) :=
  ⟨rfl, rfl⟩

/-- C8: both fetchers split the comma-joined keyword string on commas, strip
the keywords, and space-join them into one free-text query; the REPL variant
uses all keywords while the HTTP variant uses only the first three, and the
two differ on a four-keyword input. -/
theorem claim8_query_split (i : List Char) :
    query_app i = querySpecAll i ∧
    query_flask i = querySpecFirstThree i ∧
    query_app "a, b, c, d".toList = "a b c d".toList ∧
    query_flask "a, b, c, d".toList = "a b c".toList :=
  ⟨rfl, rfl, by decide, by decide⟩

/-- C7: in every pipeline run, for both entry points, each step returns a
delta writing exactly one state field (extract writes interests, fetch
writes articles, rank writes recommendations), and merging the deltas never
overwrites a field set by an earlier step: after fetch the interests are
unchanged, and after rank both interests and articles are unchanged; the
final merged state is what the compiled pipeline returns. -/
theorem claim7_field_ownership (topic : String)
    (net : List Char → HttpOutcome) (m : String → ModelOutcome) :
    (∃ d1 s1 d2 s2 d3 s3,
      extract_interests_node (initState topic) = some d1 ∧
      d1.interests.isSome = true ∧ d1.articles = none ∧
      d1.recommendations = none ∧
      s1 = mergeState (initState topic) d1 ∧
      fetch_articles_node_app net s1 = some d2 ∧
      d2.articles.isSome = true ∧ d2.interests = none ∧
      d2.recommendations = none ∧
      s2 = mergeState s1 d2 ∧
      rank_node_app m s2 = some d3 ∧
      d3.recommendations.isSome = true ∧ d3.interests = none ∧
      d3.articles = none ∧
      s3 = mergeState s2 d3 ∧
      s2.interests = s1.interests ∧ s3.interests = s1.interests ∧
      s3.articles = s2.articles ∧
      runPipelineApp topic net m = some s3) ∧
    (∃ d1 s1 d2 s2 d3 s3,
      extract_interests_node (initState topic) = some d1 ∧
      d1.interests.isSome = true ∧ d1.articles = none ∧
      d1.recommendations = none ∧
      s1 = mergeState (initState topic) d1 ∧
      fetch_articles_node_flask net s1 = some d2 ∧
      d2.articles.isSome = true ∧ d2.interests = none ∧
      d2.recommendations = none ∧
      s2 = mergeState s1 d2 ∧
      rank_node_flask m s2 = some d3 ∧
      d3.recommendations.isSome = true ∧ d3.interests = none ∧
      d3.articles = none ∧
      s3 = mergeState s2 d3 ∧
      s2.interests = s1.interests ∧ s3.interests = s1.interests ∧
      s3.articles = s2.articles ∧
      runPipelineFlask topic net m = some s3) := by
  constructor
  · exact ⟨_, _, _, _, _, _, rfl, rfl, rfl, rfl, rfl, rfl, rfl, rfl, rfl,
      rfl, rfl, rfl, rfl, rfl, rfl, rfl, rfl, rfl, rfl⟩
  · exact ⟨_, _, _, _, _, _, rfl, rfl, rfl, rfl, rfl, rfl, rfl, rfl, rfl,
      rfl, rfl, rfl, rfl, rfl, rfl, rfl, rfl, rfl, rfl⟩

/-- C5: a POST to the recommend route whose JSON object body has no topic
field, or an empty topic value, receives a 400 response with an error field,
and the pipeline is never invoked. -/
theorem claim5_missing_topic (pipe : String → Except String (Option String))
    (topic : Option String) (h : topic = none ∨ topic = some "") :
    (recommend (ReqBody.jsonDict topic) pipe).1.status = 400 ∧
    (recommend (ReqBody.jsonDict topic) pipe).1.error.isSome = true ∧
    (recommend (ReqBody.jsonDict topic) pipe).2 = 0 := by
  rcases h with rfl | rfl
  · exact ⟨rfl, rfl, rfl⟩
  · exact ⟨rfl, rfl, rfl⟩

/-- C5 witness: the concrete empty body with no topic field. -/
theorem claim5_witness :
    ((none : Option String) = none ∨ (none : Option String) = some "") ∧
    ((recommend (ReqBody.jsonDict none) (fun _ => Except.ok none)).1.status
        = 400 ∧
      (recommend (ReqBody.jsonDict none)
        (fun _ => Except.ok none)).1.error.isSome = true ∧
      (recommend (ReqBody.jsonDict none) (fun _ => Except.ok none)).2 = 0) :=
  ⟨Or.inl rfl,
    claim5_missing_topic (fun _ => Except.ok none) none (Or.inl rfl)⟩

/-- C10: a POST to the recommend route whose body is not a JSON object
(unparseable JSON or wrong content type, JSON null, or a non-object JSON
value) is answered with a 500 response carrying an error field, not the 400
missing-topic response, and the pipeline is not invoked: the parse failure
raises inside the handler and the broad except branch catches it. -/
theorem claim10_non_object_500 (pipe : String → Except String (Option String))
    (b : ReqBody) (h : ∀ t, b ≠ ReqBody.jsonDict t) :
    (recommend b pipe).1.status = 500 ∧
    (recommend b pipe).1.error.isSome = true ∧
    (recommend b pipe).2 = 0 := by
  cases b with
  | badJson e => exact ⟨rfl, rfl, rfl⟩
  | jsonNull => exact ⟨rfl, rfl, rfl⟩
  | nonDict e => exact ⟨rfl, rfl, rfl⟩
  | jsonDict t => exact absurd rfl (h t)

/-- C10 witness: the concrete JSON null body. -/
theorem claim10_witness :
    (∀ t, ReqBody.jsonNull ≠ ReqBody.jsonDict t) ∧
    ((recommend ReqBody.jsonNull (fun _ => Except.ok none)).1.status = 500 ∧
      (recommend ReqBody.jsonNull
        (fun _ => Except.ok none)).1.error.isSome = true ∧
      (recommend ReqBody.jsonNull (fun _ => Except.ok none)).2 = 0) :=
  ⟨(fun _ h => nomatch h),
    claim10_non_object_500 (fun _ => Except.ok none) ReqBody.jsonNull
      (fun _ h => nomatch h)⟩

/-- C1 counterexample: the claim fails on the HTTP implementation. A 2xx
JSON body whose status field is error rather than the success marker, with a
nonempty results list, makes fetch_news_articles of src/flask_api.py return
that results list instead of the empty list: flask_api never inspects the
status field. -/
theorem claim1_counterexample :
    fetch_news_articles_flask "tech".toList
        (fun _ => HttpOutcome.ok (some cexBody)) = [a0] ∧
    [a0] ≠ ([] : List Article) :=
  ⟨rfl, by decide⟩

/-- C1 amended: for every invocation of either fetcher, a transport error,
a non-2xx status or an unparseable 2xx body yields the empty list and no
exception; a parsed 2xx body whose status field is not the success marker
yields the empty list in the REPL implementation, while the HTTP
implementation does not inspect the status field and returns the results
list of any parsed 2xx body, empty only when that field is absent. -/
theorem claim1_fetch_absorbs (i : List Char) (net : List Char → HttpOutcome) :
    (∀ e, net (query_app i) = HttpOutcome.reqError e →
      fetch_news_articles_app i net = []) ∧
    (∀ c e, net (query_app i) = HttpOutcome.httpError c e →
      fetch_news_articles_app i net = []) ∧
    (net (query_app i) = HttpOutcome.ok none →
      fetch_news_articles_app i net = []) ∧
    (∀ b, net (query_app i) = HttpOutcome.ok (some b) →
      b.status ≠ some "success" → fetch_news_articles_app i net = []) ∧
    (∀ e, net (query_flask i) = HttpOutcome.reqError e →
      fetch_news_articles_flask i net = []) ∧
    (∀ c e, net (query_flask i) = HttpOutcome.httpError c e →
      fetch_news_articles_flask i net = []) ∧
    (net (query_flask i) = HttpOutcome.ok none →
      fetch_news_articles_flask i net = []) ∧
    (∀ b, net (query_flask i) = HttpOutcome.ok (some b) →
      fetch_news_articles_flask i net = (b.results).getD []) := by
  refine ⟨?_, ?_, ?_, ?_, ?_, ?_, ?_, ?_⟩
  · intro e he
    unfold fetch_news_articles_app
    rw [he]
  · intro c e he
    unfold fetch_news_articles_app
    rw [he]
  · intro he
    unfold fetch_news_articles_app
    rw [he]
  · intro b hb hs
    unfold fetch_news_articles_app
    rw [hb]
    exact if_neg hs
  · intro e he
    unfold fetch_news_articles_flask
    rw [he]
  · intro c e he
    unfold fetch_news_articles_flask
    rw [he]
  · intro he
    unfold fetch_news_articles_flask
    rw [he]
  · intro b hb
    unfold fetch_news_articles_flask
    rw [hb]

/-- C1 witness: a concrete timed-out call on the REPL fetcher. -/
theorem claim1_witness :
    fetch_news_articles_app "tech".toList
      (fun _ => HttpOutcome.reqError "timeout") = [] :=
  (claim1_fetch_absorbs "tech".toList
    (fun _ => HttpOutcome.reqError "timeout")).1 "timeout" rfl

/-- C2 counterexample: the claim fails on the REPL implementation. When the
model call raises an error described as boom, rank_articles of src/app.py
returns its fixed failure message, which does not embed the description of
the failing error. -/
theorem claim2_counterexample :
    rank_articles_app [a0] "tech" (fun _ => ModelOutcome.fail "boom") =
      (appRankFailMsg, 1) ∧
    hasSub appRankFailMsg.data "boom".data = false :=
  ⟨by decide, by decide⟩

/-- C2 amended: for every nonempty article list and interests string, when
the model call fails with an exception of any description, both rankers
return a string and raise nothing; the HTTP implementation embeds the
description of the failing error in its failure string, while the REPL
implementation returns a fixed failure message that does not mention the
error. -/
theorem claim2_rank_absorbs (arts : List Article) (ints e : String)
    (h : arts ≠ []) :
    rank_articles_flask arts ints (fun _ => ModelOutcome.fail e) =
      (flaskRankFailStem ++ e, 1) ∧
    hasSub (flaskRankFailStem ++ e).data e.data = true ∧
    rank_articles_app arts ints (fun _ => ModelOutcome.fail e) =
      (appRankFailMsg, 1) := by
  refine ⟨?_, ?_, ?_⟩
  · unfold rank_articles_flask
    rw [if_neg h]
  · rw [String.data_append]
    exact hasSub_append_left _ _ _ (hasSub_of_pfx _ _ (pfx_refl _))
  · unfold rank_articles_app
    rw [if_neg h]

/-- C2 witness: a concrete failing model call on a one-article batch. -/
theorem claim2_witness :
    ([a0] : List Article) ≠ [] ∧
    (rank_articles_flask [a0] "tech" (fun _ => ModelOutcome.fail "boom") =
        (flaskRankFailStem ++ "boom", 1) ∧
      hasSub (flaskRankFailStem ++ "boom").data "boom".data = true ∧
      rank_articles_app [a0] "tech" (fun _ => ModelOutcome.fail "boom") =
        (appRankFailMsg, 1)) :=
  ⟨by decide, claim2_rank_absorbs [a0] "tech" "boom" (by decide)⟩
